import Mathlib

/-!
Verification development for the tree-xml crate (src/node.rs, src/error.rs).

The crate materialises an XML document as a tree of `Node` values
(name, text content, attribute mapping, ordered children), built from the
event stream of a low-level tokenizer (an external collaborator per the
spec) and serialised back to an event stream.

The embedding works at the event level: the tokenizer and the UTF-8 layer
are external to the repository, so events carry already-decoded `String`
data.  The Rust `VecDeque` used as a stack through `push_back`, `pop_back`
and `back_mut` is modelled as a Lean `List` whose head is the back (top)
of the stack.  The Rust `HashMap<String, String>` is modelled as the list
of its entries in iteration order; a `HashMap` never holds two entries
with the same key, and its iteration order is not determined by its
contents, so structural equality of maps is lookup agreement, not list
equality.
-/

namespace TreeXml

/-- Error type, from src/error.rs (the variants reachable in the embedding). -/
inductive ParseNodeError
  | WrongName (expected found : String)
  | MissingChild (name parent : String)
  | MissingAttribute (key parent : String)
deriving DecidableEq, Repr

/-- Error enum from src/error.rs; `Eof` and `ParseNodeError` are the variants
the embedded code can produce. -/
inductive Error
  | Eof
  | ParseNodeErr (e : ParseNodeError)
deriving DecidableEq, Repr

/-- The events of the quick-xml reader that `Node::read_from` distinguishes:
Start, Empty, End, Text, Eof, and a catch-all for the ignored kinds. -/
inductive XEvent
  | Start (name : String) (attrs : List (String × String))
  | Empty (name : String) (attrs : List (String × String))
  | End (name : String)
  | Text (s : String)
  | Eof
  | Other
deriving DecidableEq, Repr

/-- The tree node from src/node.rs: name, content, attribute map (entries in
iteration order) and ordered children. -/
inductive Node
  | mk (name content : String) (attributes : List (String × String))
       (childs : List Node)

mutual

/-- Exact (representation-level) equality test on nodes, used only to give
`Node` decidable equality in Lean. -/
def Node.beqExact : Node → Node → Bool
  | .mk n c a ch, .mk n' c' a' ch' =>
      n == n' && c == c' && a == a' && beqExactList ch ch'
termination_by structural a => a

/-- Exact equality test on node lists. -/
def beqExactList : List Node → List Node → Bool
  | [], [] => true
  | x :: xs, y :: ys => Node.beqExact x y && beqExactList xs ys
  | _, _ => false
termination_by structural xs => xs

end

mutual

theorem Node.beqExact_iff : ∀ a b : Node, Node.beqExact a b = true ↔ a = b
  | .mk n c a ch, .mk n' c' a' ch' => by
      simp [Node.beqExact, beqExactList_iff ch ch', and_assoc]

theorem beqExactList_iff : ∀ xs ys : List Node, beqExactList xs ys = true ↔ xs = ys
  | [], [] => by simp [beqExactList]
  | [], _ :: _ => by simp [beqExactList]
  | _ :: _, [] => by simp [beqExactList]
  | x :: xs, y :: ys => by
      simp [beqExactList, Node.beqExact_iff x y, beqExactList_iff xs ys]

end

instance : DecidableEq Node := fun a b =>
  decidable_of_iff (Node.beqExact a b = true) (Node.beqExact_iff a b)

instance exceptDecEq {ε α : Type} [DecidableEq ε] [DecidableEq α] :
    DecidableEq (Except ε α) := fun a b =>
  match a, b with
  | .error e, .error e0 => decidable_of_iff (e = e0) (by simp)
  | .error _, .ok _ => isFalse (fun h => Except.noConfusion h)
  | .ok _, .error _ => isFalse (fun h => Except.noConfusion h)
  | .ok x, .ok y => decidable_of_iff (x = y) (by simp)

def Node.name : Node → String
  | .mk n _ _ _ => n

def Node.content : Node → String
  | .mk _ c _ _ => c

def Node.attributes : Node → List (String × String)
  | .mk _ _ a _ => a

def Node.childs : Node → List Node
  | .mk _ _ _ ch => ch

/-- `HashMap::get` on the entry list: the key is unique in any reachable map,
so first match is the match. -/
def hmGet : List (String × String) → String → Option String
  | [], _ => none
  | (k0, v0) :: rest, k => if k0 = k then some v0 else hmGet rest k

/-- `HashMap::insert`: overwrite the value when the key is present, otherwise
add a new entry. -/
def hmInsert : List (String × String) → String → String → List (String × String)
  | [], k, v => [(k, v)]
  | (k0, v0) :: rest, k, v =>
      if k0 = k then (k0, v) :: rest else (k0, v0) :: hmInsert rest k v

/-- `collect::<HashMap<_, _>>()` over a pair sequence: repeated insert,
duplicate keys resolved last-wins. -/
def hmFromList (l : List (String × String)) : List (String × String) :=
  l.foldl (fun acc kv => hmInsert acc kv.1 kv.2) []

def hmHasKey (l : List (String × String)) (k : String) : Bool :=
  (hmGet l k).isSome

/-- The no-duplicate-keys invariant every reachable `HashMap` satisfies. -/
def hmKeysNodup : List (String × String) → Bool
  | [] => true
  | (k, _) :: rest => !hmHasKey rest k && hmKeysNodup rest

/-- `HashMap` equality as derived by Rust `PartialEq`: equal size and every
entry of the left map looked up equal in the right map. -/
def hmEquiv (l1 l2 : List (String × String)) : Bool :=
  l1.length == l2.length && l1.all (fun kv => hmGet l2 kv.1 == some kv.2)

mutual

/-- Structural equality of nodes, as derived by `PartialEq` on `Node`:
equal name, equal content, equal attribute mapping (order-insensitive),
equal ordered child sequences, recursively. -/
def Node.beqStruct : Node → Node → Bool
  | .mk n c a ch, .mk n' c' a' ch' =>
      n == n' && c == c' && hmEquiv a a' && beqStructList ch ch'
termination_by structural a => a

/-- `Vec<Node>` equality for `Node.beqStruct`. -/
def beqStructList : List Node → List Node → Bool
  | [], [] => true
  | x :: xs, y :: ys => x.beqStruct y && beqStructList xs ys
  | _, _ => false
termination_by structural xs => xs

end

/-- `str::trim` on the character list: drop whitespace from the front and
from the back.  Whitespace here is the ASCII whitespace of
`Char.isWhitespace`; the full Unicode White_Space set of Rust differs only
on exotic code points outside the scope of this development. -/
def trimChars (l : List Char) : List Char :=
  ((l.dropWhile Char.isWhitespace).reverse.dropWhile Char.isWhitespace).reverse

/-- `str::trim`. -/
def strTrim (s : String) : String :=
  String.mk (trimChars s.data)

/-- `TryFrom<&BytesStart> for Node`: a fresh node from a Start/Empty event,
with the raw attribute pairs collected into the attribute map (last wins on
duplicate keys), empty content and no children.  Decoding is the external
UTF-8 layer and always succeeds on the already-decoded strings of the
embedding. -/
def nodeOfStart (n : String) (a : List (String × String)) : Node :=
  .mk n "" (hmFromList a) []

/-- `parent.childs.push(node)`. -/
def pushChild (parent child : Node) : Node :=
  .mk parent.name parent.content parent.attributes (parent.childs ++ [child])

/-- `node.content += content` on the node at the back of the stack. -/
def addContent (node : Node) (s : String) : Node :=
  .mk node.name (node.content ++ s) node.attributes node.childs

/-- Append a whole list of children to a node, the effect of a run of
closed or self-closing child elements on the open parent. -/
def addChilds (parent : Node) (ts : List Node) : Node :=
  .mk parent.name parent.content parent.attributes (parent.childs ++ ts)

/-- The event loop of `Node::read_from` (src/node.rs lines 186-245).  The
first argument is the `node_stack`, head = back of the `VecDeque`; the
second is the remaining event stream.  An exhausted stream is what the
underlying reader reports as `Eof`, so both are end-of-input. -/
def go : List Node → List XEvent → Except Error Node
  | _, [] => .error .Eof
  | _, .Eof :: _ => .error .Eof
  | stack, .Start n a :: evs => go (nodeOfStart n a :: stack) evs
  | parent :: rest, .Empty n a :: evs =>
      go (pushChild parent (nodeOfStart n a) :: rest) evs
  | [], .Empty n a :: _ => .ok (nodeOfStart n a)
  | node :: parent :: rest, .End _ :: evs => go (pushChild parent node :: rest) evs
  | [node], .End _ :: _ => .ok node
  | [], .End _ :: evs => go [] evs
  | top :: rest, .Text s :: evs =>
      if strTrim s = "" then go (top :: rest) evs
      else go (addContent top (strTrim s) :: rest) evs
  | [], .Text _ :: evs => go [] evs
  | stack, .Other :: evs => go stack evs

/-- `Node::read_from`: run the event loop from an empty stack. -/
def readFromEvents (evs : List XEvent) : Except Error Node :=
  go [] evs

/-- One call against the byte sink: an event write or a flush. -/
inductive SinkOp
  | ev (e : XEvent)
  | flush
deriving DecidableEq

mutual

/-- `Node::write_to_impl` (src/node.rs lines 130-155) as the trace of sink
calls it makes: a single Empty event for a childless, content-less node;
otherwise Start, the content as a Text event when non-empty, every child in
order via `write_to`, and the End tag carrying the name. -/
def Node.writeToImpl : Node → List SinkOp
  | .mk n c a ch =>
      if ch = [] ∧ c = "" then [.ev (.Empty n a)]
      else [.ev (.Start n a)]
             ++ (if c = "" then [] else [.ev (.Text c)])
             ++ writeToList ch
             ++ [.ev (.End n)]
termination_by structural node => node

/-- The `for child in &self.childs { child.write_to(writer)?; }` loop.
Each child goes through `write_to`, that is `write_to_impl` followed by a
flush of the sink; the flush is inlined here so that the recursion stays
structural. -/
def writeToList : List Node → List SinkOp
  | [] => []
  | t :: ts => (t.writeToImpl ++ [.flush]) ++ writeToList ts
termination_by structural l => l

end

/-- `Node::write_to`: `write_to_impl` followed by a flush of the sink. -/
def Node.writeTo (node : Node) : List SinkOp :=
  node.writeToImpl ++ [.flush]

/-- The event stream a sink trace carries (a flush writes no event). -/
def sinkEvents (ops : List SinkOp) : List XEvent :=
  ops.filterMap (fun op => match op with | .ev e => some e | .flush => none)

/-- `Node::attribute` (src/node.rs lines 62-71): look the key up in the
attribute map, or fail with `MissingAttribute(key, node_name)`.  Named
`attributeGet` because `attribute` is a reserved word in Lean. -/
def Node.attributeGet (node : Node) (key : String) : Except Error String :=
  match hmGet node.attributes key with
  | some v => .ok v
  | none => .error (.ParseNodeErr (.MissingAttribute key node.name))

/-- `Node::has_attribute`: `contains_key`. -/
def Node.hasAttribute (node : Node) (key : String) : Bool :=
  hmHasKey node.attributes key

/-- `Node::childs_by_name` (src/node.rs lines 112-123): the children whose
name equals the argument.  A Lean list is a finite, restartable sequence,
matching the restartable filtered iterator of the source. -/
def Node.childsByName (node : Node) (n : String) : List Node :=
  node.childs.filter (fun c => c.name == n)

/-- `Node::child_by_name` (src/node.rs lines 103-109): first child of that
name, or `MissingChild(name, node_name)`. -/
def Node.childByName (node : Node) (n : String) : Except Error Node :=
  match node.childsByName n with
  | c :: _ => .ok c
  | [] => .error (.ParseNodeErr (.MissingChild n node.name))

/-- `Node::has_childs`. -/
def Node.hasChilds (node : Node) : Bool :=
  !node.childs.isEmpty

/-- `Node::child_count`. -/
def Node.childCount (node : Node) : Nat :=
  node.childs.length

/-- `NodeBuilder` (src/node.rs lines 28-34). -/
inductive NodeBuilder
  | mk (name content : String) (attributes : List (String × String))
       (childs : List Node)

/-- `NodeBuilder::new`: name as given, empty content, no attributes, no
children.  No validation of the name happens anywhere on this path. -/
def NodeBuilder.new (name : String) : NodeBuilder :=
  .mk name "" [] []

/-- `NodeBuilder::name` setter. -/
def NodeBuilder.name : NodeBuilder → String → NodeBuilder
  | .mk _ c a ch, n => .mk n c a ch

/-- `NodeBuilder::content` setter. -/
def NodeBuilder.content : NodeBuilder → String → NodeBuilder
  | .mk n _ a ch, c => .mk n c a ch

/-- `NodeBuilder::attribute`: insert one key-value pair (overwrite on
duplicate). -/
def NodeBuilder.attribute : NodeBuilder → String → String → NodeBuilder
  | .mk n c a ch, k, v => .mk n c (hmInsert a k v) ch

/-- `NodeBuilder::attributes`: `HashMap::extend`, one insert per pair. -/
def NodeBuilder.attributesAdd : NodeBuilder → List (String × String) → NodeBuilder
  | .mk n c a ch, l => .mk n c (l.foldl (fun acc kv => hmInsert acc kv.1 kv.2) a) ch

/-- `NodeBuilder::child`: push one child. -/
def NodeBuilder.child : NodeBuilder → Node → NodeBuilder
  | .mk n c a ch, t => .mk n c a (ch ++ [t])

/-- `NodeBuilder::childs`: `Vec::extend`. -/
def NodeBuilder.childsAdd : NodeBuilder → List Node → NodeBuilder
  | .mk n c a ch, ts => .mk n c a (ch ++ ts)

/-- `NodeBuilder::option_child`: push when present, no-op when absent. -/
def NodeBuilder.optionChild : NodeBuilder → Option Node → NodeBuilder
  | b, none => b
  | b, some t => b.child t

/-- `NodeBuilder::try_child`: push the converted child when the conversion
succeeds, surface its error otherwise. -/
def NodeBuilder.tryChild : NodeBuilder → Except Error Node → Except Error NodeBuilder
  | _, .error e => .error e
  | b, .ok t => .ok (b.child t)

/-- `NodeBuilder::build`: copy every currently-set field into a `Node`. -/
def NodeBuilder.build : NodeBuilder → Node
  | .mk n c a ch => .mk n c a ch

/-- The characters the quick-xml `escape` function replaces. -/
def escapable (c : Char) : Bool :=
  c = '<' || c = '>' || c = '&' || c = Char.ofNat 39 || c = Char.ofNat 34

/-- Escaping of one character, as done by `BytesText::new` on text content. -/
def escapeChar (c : Char) : String :=
  if c = '<' then "&lt;"
  else if c = '>' then "&gt;"
  else if c = '&' then "&amp;"
  else if c = Char.ofNat 39 then "&apos;"
  else if c = Char.ofNat 34 then "&quot;"
  else String.singleton c

/-- quick-xml text escaping, applied to content by `BytesText::new`. -/
def escapeText (s : String) : String :=
  String.join (s.toList.map escapeChar)

/-- Attribute serialisation of the quick-xml writer: one space, the key,
an equals sign and the raw value in double quotes. -/
def renderAttrs : List (String × String) → String
  | [] => ""
  | (k, v) :: rest => " " ++ k ++ "=\"" ++ v ++ "\"" ++ renderAttrs rest

/-- Byte output of the quick-xml writer for one event, as the writer is
driven by `write_to_impl`.  The writer inserts no whitespace of its own. -/
def renderEvent : XEvent → String
  | .Start n a => "<" ++ n ++ renderAttrs a ++ ">"
  | .Empty n a => "<" ++ n ++ renderAttrs a ++ "/>"
  | .End n => "</" ++ n ++ ">"
  | .Text s => escapeText s
  | .Eof => ""
  | .Other => ""

/-- The `Display` impl: write the node into an in-memory sink and decode
the bytes written there. -/
def Node.render (node : Node) : String :=
  String.join ((sinkEvents node.writeTo).map renderEvent)

mutual

/-- Round-trip well-formedness: every node of the tree has a non-empty name,
content with no leading or trailing whitespace, and no duplicate attribute
keys (the last holds for every map the builder or the parser can produce). -/
def Node.wfRT : Node → Bool
  | .mk n c a ch => (n != "") && (strTrim c == c) && hmKeysNodup a && wfRTList ch
termination_by structural node => node

/-- `Node.wfRT` on every node of a list. -/
def wfRTList : List Node → Bool
  | [] => true
  | t :: ts => t.wfRT && wfRTList ts
termination_by structural l => l

end

mutual

/-- No character requiring escaping in any content or attribute value of the
tree, the proviso of the round-trip property. -/
def Node.noEscape : Node → Bool
  | .mk _ c a ch =>
      c.data.all (fun ch0 => !escapable ch0)
        && a.all (fun kv => kv.2.data.all (fun ch0 => !escapable ch0))
        && noEscapeList ch
termination_by structural node => node

/-- `Node.noEscape` on every node of a list. -/
def noEscapeList : List Node → Bool
  | [] => true
  | t :: ts => t.noEscape && noEscapeList ts
termination_by structural l => l

end

mutual

/-- Every node of the tree carries at most one attribute. -/
def Node.attrsAtMostOne : Node → Bool
  | .mk _ _ a ch => (a.length ≤ 1 : Bool) && attrsAtMostOneList ch
termination_by structural node => node

/-- `Node.attrsAtMostOne` on every node of a list. -/
def attrsAtMostOneList : List Node → Bool
  | [] => true
  | t :: ts => t.attrsAtMostOne && attrsAtMostOneList ts
termination_by structural l => l

end

/- The definitions of the embedding end here; everything below settles the
specified properties. -/

theorem go_eofCons (stack : List Node) (evs : List XEvent) :
    go stack (.Eof :: evs) = .error .Eof := by
  cases stack with
  | nil => rfl
  | cons a t => cases t <;> rfl

theorem go_exhausted (stack : List Node) : go stack [] = .error .Eof := by
  cases stack with
  | nil => rfl
  | cons a t => cases t <;> rfl

theorem go_endPop (node parent : Node) (rest : List Node) (nm : String)
    (evs : List XEvent) :
    go (node :: parent :: rest) (.End nm :: evs)
      = go (pushChild parent node :: rest) evs := rfl

theorem go_endRoot (node : Node) (nm : String) (evs : List XEvent) :
    go [node] (.End nm :: evs) = .ok node := rfl

theorem go_endStray (nm : String) (evs : List XEvent) :
    go [] (.End nm :: evs) = go [] evs := rfl

theorem go_startPush (stack : List Node) (n : String) (a : List (String × String))
    (evs : List XEvent) :
    go stack (.Start n a :: evs) = go (nodeOfStart n a :: stack) evs := by
  cases stack with
  | nil => rfl
  | cons p t => cases t <;> rfl

theorem go_emptyPush (parent : Node) (rest : List Node) (n : String)
    (a : List (String × String)) (evs : List XEvent) :
    go (parent :: rest) (.Empty n a :: evs)
      = go (pushChild parent (nodeOfStart n a) :: rest) evs := by
  cases rest <;> rfl

theorem go_emptyRoot (n : String) (a : List (String × String)) (evs : List XEvent) :
    go [] (.Empty n a :: evs) = .ok (nodeOfStart n a) := rfl

theorem go_text (top : Node) (rest : List Node) (s : String) (evs : List XEvent) :
    go (top :: rest) (.Text s :: evs)
      = go (addContent top (strTrim s) :: rest) evs := by
  by_cases h : strTrim s = ""
  · cases top with
    | mk n c a ch =>
        cases rest <;>
          simp [go, h, addContent, Node.name, Node.content, Node.attributes, Node.childs]
  · cases rest <;> simp [go, h]

/-- C2: on the event sequence Start(a) Start(b) End(b) End(a), `read_from`
returns a tree with root named a whose single child is named b, both
childless with empty content; in general an End event pops the top of the
stack, attaches the popped node as last child of the new top when the stack
is still non-empty, and terminates successfully with the popped node as the
root when the stack became empty. -/
theorem claim_C2 :
    readFromEvents [.Start "a" [], .Start "b" [], .End "b", .End "a"]
        = .ok (.mk "a" "" [] [.mk "b" "" [] []])
      ∧ (∀ (node parent : Node) (rest : List Node) (nm : String) (evs : List XEvent),
          go (node :: parent :: rest) (.End nm :: evs)
            = go (pushChild parent node :: rest) evs)
      ∧ (∀ (node : Node) (nm : String) (evs : List XEvent),
          go [node] (.End nm :: evs) = .ok node) :=
  ⟨by decide, fun node parent rest nm evs => go_endPop node parent rest nm evs,
    fun node nm evs => go_endRoot node nm evs⟩

/-- C3: the single event Empty(a, [(k, v)]) read from an empty stack yields a
leaf named a carrying exactly that attribute, no children and empty content;
in general an Empty event read with a non-empty stack appends the new node
as a child of the current top instead of returning, and with an empty stack
returns the new node at once. -/
theorem claim_C3 :
    readFromEvents [.Empty "a" [("k", "v")]] = .ok (.mk "a" "" [("k", "v")] [])
      ∧ (∀ (parent : Node) (rest : List Node) (n : String)
            (a : List (String × String)) (evs : List XEvent),
          go (parent :: rest) (.Empty n a :: evs)
            = go (pushChild parent (nodeOfStart n a) :: rest) evs)
      ∧ (∀ (n : String) (a : List (String × String)) (evs : List XEvent),
          go [] (.Empty n a :: evs) = .ok (nodeOfStart n a)) :=
  ⟨by decide, fun parent rest n a evs => go_emptyPush parent rest n a evs,
    fun n a evs => go_emptyRoot n a evs⟩

/-- C4: a text event with a non-empty stack trims the fragment and appends
the trimmed fragment to the content of the top node with no separator (a
fragment that trims to the empty string appends the empty string, changing
nothing); Start(a) Text( hello ) Text(world ) End(a) therefore produces
content exactly helloworld. -/
theorem claim_C4 :
    readFromEvents [.Start "a" [], .Text " hello ", .Text "world ", .End "a"]
        = .ok (.mk "a" "helloworld" [] [])
      ∧ (∀ (top : Node) (rest : List Node) (s : String) (evs : List XEvent),
          go (top :: rest) (.Text s :: evs)
            = go (addContent top (strTrim s) :: rest) evs) :=
  ⟨by decide, fun top rest s evs => go_text top rest s evs⟩

/-- C5: reaching end of input in any state in which no terminal node has been
produced — whatever the stack of still-open nodes — makes `read_from` return
the end-of-input error `Error::Eof`, never a partial tree. -/
theorem claim_C5 :
    (∀ (stack : List Node) (evs : List XEvent),
        go stack (.Eof :: evs) = .error .Eof)
      ∧ (∀ stack : List Node, go stack [] = .error .Eof) :=
  ⟨fun stack evs => go_eofCons stack evs, fun stack => go_exhausted stack⟩

/-- C6: an End event observed while the stack is empty (a stray end tag) does
not abort the parse: the state is unchanged and the remaining events are
processed as before, so a following well-formed document still parses to its
root. -/
theorem claim_C6 :
    (∀ (nm : String) (evs : List XEvent), go [] (.End nm :: evs) = go [] evs)
      ∧ readFromEvents [.End "x", .Start "a" [], .End "a"]
          = .ok (.mk "a" "" [] []) :=
  ⟨fun nm evs => go_endStray nm evs, by decide⟩

/-- C10: the builder path validates nothing: for every string, the empty
string included, `NodeBuilder::new(name).build()` produces a node whose name
is that string unchanged, with empty content, no attributes and no
children. -/
theorem claim_C10 :
    (∀ s : String, (NodeBuilder.new s).build = Node.mk s "" [] []
      ∧ ((NodeBuilder.new s).build).name = s)
      ∧ ((NodeBuilder.new "").build).name = "" :=
  ⟨fun _ => ⟨rfl, rfl⟩, rfl⟩

theorem hasAttribute_false_get (node : Node) (x : String)
    (h : node.hasAttribute x = false) : hmGet node.attributes x = none := by
  unfold Node.hasAttribute hmHasKey at h
  cases hg : hmGet node.attributes x with
  | none => rfl
  | some v => rw [hg] at h; simp at h

/-- C9: the structural queries fail exactly on absence and their errors carry
both names: with no attribute x, `attribute(x)` returns
MissingAttribute(x, node name), and with the key present it returns the
stored value; with no child named y, `child_by_name(y)` returns
MissingChild(y, node name) while `childs_by_name(y)` yields the empty
(trivially restartable) sequence. -/
theorem claim_C9 (node : Node) (x p y : String) :
    (node.hasAttribute x = false →
        node.attributeGet x = .error (.ParseNodeErr (.MissingAttribute x node.name)))
      ∧ (∀ v, hmGet node.attributes p = some v → node.attributeGet p = .ok v)
      ∧ ((∀ c ∈ node.childs, c.name ≠ y) →
          node.childByName y = .error (.ParseNodeErr (.MissingChild y node.name))
            ∧ node.childsByName y = []) := by
  refine ⟨fun h => ?_, fun v hv => ?_, fun h => ?_⟩
  · rw [Node.attributeGet, hasAttribute_false_get node x h]
  · rw [Node.attributeGet, hv]
  · have hnil : node.childsByName y = [] := by
      rw [Node.childsByName, List.filter_eq_nil_iff]
      intro c hc
      simp [h c hc]
    exact ⟨by rw [Node.childByName, hnil], hnil⟩

/-- C9 witness at a node with one attribute p and one child c. -/
theorem claim_C9_witness :
    (Node.mk "n" "" [("p", "q")] [.mk "c" "" [] []]).attributeGet "x"
        = .error (.ParseNodeErr (.MissingAttribute "x" "n"))
      ∧ (Node.mk "n" "" [("p", "q")] [.mk "c" "" [] []]).attributeGet "p" = .ok "q"
      ∧ (Node.mk "n" "" [("p", "q")] [.mk "c" "" [] []]).childByName "y"
          = .error (.ParseNodeErr (.MissingChild "y" "n"))
      ∧ (Node.mk "n" "" [("p", "q")] [.mk "c" "" [] []]).childsByName "y" = [] := by
  have h := claim_C9 (Node.mk "n" "" [("p", "q")] [.mk "c" "" [] []]) "x" "p" "y"
  exact ⟨h.1 (by decide), h.2.1 "q" (by decide),
    (h.2.2 (by decide)).1, (h.2.2 (by decide)).2⟩

theorem writeToList_eq_flatten (ts : List Node) :
    writeToList ts = (ts.map Node.writeTo).flatten := by
  induction ts with
  | nil => rfl
  | cons t ts ih => simp [writeToList, Node.writeTo, ih]

/-- C7: `write_to` emits exactly one self-closing element event with the node
name and attributes when the node has no children and empty content;
otherwise an opening tag, the content as one text event when non-empty,
every child recursively in order (each child through `write_to`, flush
included), and a closing tag carrying the name only; and the whole of
`write_to` ends by flushing the sink. -/
theorem claim_C7 (n c : String) (a : List (String × String)) (ch : List Node) :
    (Node.mk n c a ch).writeTo
      = (if ch = [] ∧ c = "" then [SinkOp.ev (.Empty n a)]
         else [SinkOp.ev (.Start n a)]
               ++ (if c = "" then [] else [SinkOp.ev (.Text c)])
               ++ (ch.map Node.writeTo).flatten
               ++ [SinkOp.ev (.End n)])
        ++ [SinkOp.flush] := by
  rw [Node.writeTo, Node.writeToImpl, writeToList_eq_flatten]

theorem hmHasKey_cons (k0 v0 k : String) (rest : List (String × String)) :
    hmHasKey ((k0, v0) :: rest) k = (decide (k0 = k) || hmHasKey rest k) := by
  by_cases h : k0 = k <;> simp [hmHasKey, hmGet, h]

theorem key_ne_of_not_hasKey (l : List (String × String)) (k : String)
    (h : hmHasKey l k = false) : ∀ kv ∈ l, kv.1 ≠ k := by
  induction l with
  | nil => intro kv hm; simp at hm
  | cons kv0 rest ih =>
      obtain ⟨k0, v0⟩ := kv0
      rw [hmHasKey_cons] at h
      simp only [Bool.or_eq_false_iff, decide_eq_false_iff_not] at h
      intro kv hm
      rcases List.mem_cons.mp hm with h1 | h1
      · rw [h1]; exact h.1
      · exact ih h.2 kv h1

theorem hmInsert_not_hasKey (acc : List (String × String)) (k v : String)
    (h : hmHasKey acc k = false) : hmInsert acc k v = acc ++ [(k, v)] := by
  induction acc with
  | nil => rfl
  | cons kv0 rest ih =>
      obtain ⟨k0, v0⟩ := kv0
      rw [hmHasKey_cons] at h
      simp only [Bool.or_eq_false_iff, decide_eq_false_iff_not] at h
      simp [hmInsert, h.1, ih h.2]

theorem hmHasKey_append (l1 l2 : List (String × String)) (k : String) :
    hmHasKey (l1 ++ l2) k = (hmHasKey l1 k || hmHasKey l2 k) := by
  induction l1 with
  | nil => simp [hmHasKey, hmGet]
  | cons kv0 rest ih =>
      obtain ⟨k0, v0⟩ := kv0
      simp [hmHasKey_cons, ih, Bool.or_assoc]

theorem foldl_hmInsert_append (l : List (String × String)) :
    ∀ acc, hmKeysNodup l = true → (∀ kv ∈ l, hmHasKey acc kv.1 = false) →
      l.foldl (fun acc kv => hmInsert acc kv.1 kv.2) acc = acc ++ l := by
  induction l with
  | nil => intro acc _ _; simp
  | cons kv0 rest ih =>
      obtain ⟨k, v⟩ := kv0
      intro acc hnd hdisj
      rw [hmKeysNodup] at hnd
      simp only [Bool.and_eq_true, Bool.not_eq_true'] at hnd
      rw [List.foldl_cons]
      have h0 : hmInsert acc k v = acc ++ [(k, v)] :=
        hmInsert_not_hasKey acc k v (hdisj (k, v) (by simp))
      rw [show hmInsert acc (k, v).1 (k, v).2 = acc ++ [(k, v)] from h0]
      rw [ih (acc ++ [(k, v)]) hnd.2 ?_]
      · simp
      · intro kv hm
        rw [hmHasKey_append]
        have h1 : hmHasKey acc kv.1 = false := hdisj kv (List.mem_cons_of_mem _ hm)
        have h2 : kv.1 ≠ k := key_ne_of_not_hasKey rest k hnd.1 kv hm
        rw [h1, hmHasKey_cons]
        simp only [Bool.false_or]
        simp [Ne.symm h2, hmHasKey, hmGet]

theorem hmFromList_self (l : List (String × String)) (h : hmKeysNodup l = true) :
    hmFromList l = l := by
  have h0 := foldl_hmInsert_append l [] h (fun kv _ => rfl)
  simpa [hmFromList] using h0

theorem sinkEvents_append (l1 l2 : List SinkOp) :
    sinkEvents (l1 ++ l2) = sinkEvents l1 ++ sinkEvents l2 := by
  simp [sinkEvents]

theorem sinkEvents_writeTo (node : Node) :
    sinkEvents node.writeTo = sinkEvents node.writeToImpl := by
  simp [Node.writeTo, sinkEvents_append, sinkEvents]

theorem wfRT_parts (n c : String) (a : List (String × String)) (ch : List Node)
    (h : (Node.mk n c a ch).wfRT = true) :
    strTrim c = c ∧ hmKeysNodup a = true ∧ wfRTList ch = true := by
  rw [Node.wfRT] at h
  simp only [Bool.and_eq_true, bne_iff_ne, ne_eq, beq_iff_eq] at h
  exact ⟨h.1.1.2, h.1.2, h.2⟩

mutual

theorem go_writeImpl : ∀ (T : Node), T.wfRT = true →
    ∀ (parent : Node) (stack : List Node) (evs : List XEvent),
      go (parent :: stack) (sinkEvents T.writeToImpl ++ evs)
        = go (pushChild parent T :: stack) evs
  | .mk n c a ch, hw, parent, stack, evs => by
      obtain ⟨htrim, hnd, hch⟩ := wfRT_parts n c a ch hw
      by_cases hleaf : ch = [] ∧ c = ""
      · rw [Node.writeToImpl, if_pos hleaf]
        obtain ⟨hch0, hc0⟩ := hleaf
        have hse : sinkEvents [SinkOp.ev (XEvent.Empty n a)] = [XEvent.Empty n a] := rfl
        rw [hse, List.cons_append, List.nil_append, go_emptyPush]
        rw [show nodeOfStart n a = Node.mk n c a ch from by
          rw [nodeOfStart, hmFromList_self a hnd, hc0, hch0]]
      · rw [Node.writeToImpl, if_neg hleaf]
        have hstep : sinkEvents ([SinkOp.ev (XEvent.Start n a)]
              ++ (if c = "" then [] else [SinkOp.ev (XEvent.Text c)])
              ++ writeToList ch ++ [SinkOp.ev (XEvent.End n)])
            = XEvent.Start n a :: ((if c = "" then [] else [XEvent.Text c])
              ++ (sinkEvents (writeToList ch) ++ [XEvent.End n])) := by
          by_cases hc : c = "" <;> simp [sinkEvents_append, hc, sinkEvents]
        rw [hstep, List.cons_append, go_startPush]
        have hna : nodeOfStart n a = Node.mk n "" a [] := by
          rw [nodeOfStart, hmFromList_self a hnd]
        rw [hna]
        have htop : go (Node.mk n "" a [] :: parent :: stack)
              (((if c = "" then [] else [XEvent.Text c])
                ++ (sinkEvents (writeToList ch) ++ [XEvent.End n])) ++ evs)
            = go (Node.mk n c a [] :: parent :: stack)
              (sinkEvents (writeToList ch) ++ ([XEvent.End n] ++ evs)) := by
          by_cases hc : c = ""
          · rw [if_pos hc, List.nil_append, hc, List.append_assoc]
          · rw [if_neg hc]
            simp only [List.cons_append, List.nil_append, List.append_assoc]
            rw [go_text, htrim]
            rw [show addContent (Node.mk n "" a []) c = Node.mk n c a [] from by
              simp [addContent, Node.name, Node.content, Node.attributes, Node.childs]]
        rw [htop]
        rw [go_writeList ch hch (Node.mk n c a []) (parent :: stack) ([XEvent.End n] ++ evs)]
        rw [show addChilds (Node.mk n c a []) ch = Node.mk n c a ch from by
          simp [addChilds, Node.name, Node.content, Node.attributes, Node.childs]]
        rw [List.singleton_append, go_endPop]
termination_by structural T => T

theorem go_writeList : ∀ (ts : List Node), wfRTList ts = true →
    ∀ (parent : Node) (stack : List Node) (evs : List XEvent),
      go (parent :: stack) (sinkEvents (writeToList ts) ++ evs)
        = go (addChilds parent ts :: stack) evs
  | [], _, parent, stack, evs => by
      have h0 : sinkEvents (writeToList []) = [] := rfl
      rw [h0, List.nil_append]
      cases parent with
      | mk pn pc pa pch =>
          rw [show addChilds (Node.mk pn pc pa pch) [] = Node.mk pn pc pa pch from by
            simp [addChilds, Node.name, Node.content, Node.attributes, Node.childs]]
  | t :: ts, hw, parent, stack, evs => by
      have hparts : t.wfRT = true ∧ wfRTList ts = true := by
        rw [wfRTList] at hw
        simpa [Bool.and_eq_true] using hw
      rw [writeToList, sinkEvents_append, sinkEvents_append]
      have hfl : sinkEvents [SinkOp.flush] = [] := rfl
      rw [hfl, List.append_nil, List.append_assoc]
      rw [go_writeImpl t hparts.1 parent stack (sinkEvents (writeToList ts) ++ evs)]
      rw [go_writeList ts hparts.2 (pushChild parent t) stack evs]
      cases parent with
      | mk pn pc pa pch =>
          rw [show addChilds (pushChild (Node.mk pn pc pa pch) t) ts
                = addChilds (Node.mk pn pc pa pch) (t :: ts) from by
            simp [addChilds, pushChild, Node.name, Node.content, Node.attributes, Node.childs]]
termination_by structural ts => ts

end


theorem readFrom_writeTo (T : Node) (hw : T.wfRT = true) :
    readFromEvents (sinkEvents T.writeTo) = .ok T := by
  cases T with
  | mk n c a ch =>
      obtain ⟨htrim, hnd, hch⟩ := wfRT_parts n c a ch hw
      rw [readFromEvents, sinkEvents_writeTo]
      by_cases hleaf : ch = [] ∧ c = ""
      · rw [Node.writeToImpl, if_pos hleaf]
        obtain ⟨hch0, hc0⟩ := hleaf
        rw [show sinkEvents [SinkOp.ev (XEvent.Empty n a)] = XEvent.Empty n a :: [] from rfl]
        rw [go_emptyRoot]
        rw [show nodeOfStart n a = Node.mk n c a ch from by
          rw [nodeOfStart, hmFromList_self a hnd, hc0, hch0]]
      · rw [Node.writeToImpl, if_neg hleaf]
        have hstep : sinkEvents ([SinkOp.ev (XEvent.Start n a)]
              ++ (if c = "" then [] else [SinkOp.ev (XEvent.Text c)])
              ++ writeToList ch ++ [SinkOp.ev (XEvent.End n)])
            = XEvent.Start n a :: ((if c = "" then [] else [XEvent.Text c])
              ++ (sinkEvents (writeToList ch) ++ [XEvent.End n])) := by
          by_cases hc : c = "" <;> simp [sinkEvents_append, hc, sinkEvents]
        rw [hstep, go_startPush]
        have hna : nodeOfStart n a = Node.mk n "" a [] := by
          rw [nodeOfStart, hmFromList_self a hnd]
        rw [hna]
        have htop : go [Node.mk n "" a []]
              ((if c = "" then [] else [XEvent.Text c])
                ++ (sinkEvents (writeToList ch) ++ [XEvent.End n]))
            = go [Node.mk n c a []] (sinkEvents (writeToList ch) ++ [XEvent.End n]) := by
          by_cases hc : c = ""
          · rw [if_pos hc, List.nil_append, hc]
          · rw [if_neg hc]
            simp only [List.cons_append, List.nil_append]
            rw [go_text, htrim]
            rw [show addContent (Node.mk n "" a []) c = Node.mk n c a [] from by
              simp [addContent, Node.name, Node.content, Node.attributes, Node.childs]]
        rw [htop]
        rw [go_writeList ch hch (Node.mk n c a []) [] [XEvent.End n]]
        rw [show addChilds (Node.mk n c a []) ch = Node.mk n c a ch from by
          simp [addChilds, Node.name, Node.content, Node.attributes, Node.childs]]
        rw [go_endRoot]

theorem hmGet_of_mem (l : List (String × String)) (hnd : hmKeysNodup l = true) :
    ∀ kv ∈ l, hmGet l kv.1 = some kv.2 := by
  induction l with
  | nil => intro kv hm; simp at hm
  | cons kv0 rest ih =>
      obtain ⟨k0, v0⟩ := kv0
      rw [hmKeysNodup] at hnd
      simp only [Bool.and_eq_true, Bool.not_eq_true'] at hnd
      intro kv hm
      rcases List.mem_cons.mp hm with h1 | h1
      · rw [h1]; simp [hmGet]
      · have hne : kv.1 ≠ k0 := key_ne_of_not_hasKey rest k0 hnd.1 kv h1
        simp only [hmGet, if_neg (Ne.symm hne)]
        exact ih hnd.2 kv h1

theorem hmEquiv_refl (l : List (String × String)) (hnd : hmKeysNodup l = true) :
    hmEquiv l l = true := by
  simp only [hmEquiv, Bool.and_eq_true, List.all_eq_true]
  refine ⟨by simp, fun kv hm => ?_⟩
  simp [hmGet_of_mem l hnd kv hm]

mutual

theorem Node.beqStruct_refl : ∀ T : Node, T.wfRT = true → T.beqStruct T = true
  | .mk n c a ch, hw => by
      obtain ⟨htrim, hnd, hch⟩ := wfRT_parts n c a ch hw
      rw [Node.beqStruct]
      simp [hmEquiv_refl a hnd, beqStructList_refl ch hch]
termination_by structural T => T

theorem beqStructList_refl : ∀ ts : List Node, wfRTList ts = true → beqStructList ts ts = true
  | [], _ => rfl
  | t :: ts, hw => by
      have hparts : t.wfRT = true ∧ wfRTList ts = true := by
        rw [wfRTList] at hw
        simpa [Bool.and_eq_true] using hw
      rw [beqStructList]
      simp [Node.beqStruct_refl t hparts.1, beqStructList_refl ts hparts.2]
termination_by structural ts => ts

end

/-- C1 counterexample: the claim as stated fails.  The builder tree with
name a and content with one leading and one trailing space has a non-empty
name and no character requiring escaping anywhere, yet rendering and
re-parsing it trims the text fragment, so the parse returns the node with
content x, which is not structurally equal to the original. -/
theorem claim_C1_counterexample :
    ((((NodeBuilder.new "a").content " x ").build).name ≠ ""
      ∧ (((NodeBuilder.new "a").content " x ").build).noEscape = true
      ∧ readFromEvents (sinkEvents ((((NodeBuilder.new "a").content " x ").build).writeTo))
          = .ok (.mk "a" "x" [] [])
      ∧ Node.beqStruct (.mk "a" "x" [] []) (((NodeBuilder.new "a").content " x ").build)
          = false) := by
  refine ⟨by decide, by decide, by decide, by decide⟩

/-- C1 (amended): for every tree with non-empty names, no character
requiring escaping in content or attribute values, and additionally every
content already trimmed of leading and trailing whitespace (`wfRT`, which
also records the no-duplicate-attribute-keys invariant every builder-built
map has), parsing the event stream rendered by `write_to` into an in-memory
sink succeeds and yields a structurally equal tree. -/
theorem claim_C1 (T : Node) (_hname : T.name ≠ "") (_hesc : T.noEscape = true)
    (hw : T.wfRT = true) :
    ∃ T2 : Node, readFromEvents (sinkEvents T.writeTo) = .ok T2
      ∧ T2.beqStruct T = true :=
  ⟨T, readFrom_writeTo T hw, Node.beqStruct_refl T hw⟩

/-- C1 witness at the two-node tree a(content x, attribute k=v) with leaf
child b. -/
theorem claim_C1_witness :
    ∃ T2 : Node,
      readFromEvents (sinkEvents (Node.mk "a" "x" [("k", "v")] [.mk "b" "" [] []]).writeTo)
          = .ok T2
        ∧ T2.beqStruct (Node.mk "a" "x" [("k", "v")] [.mk "b" "" [] []]) = true :=
  claim_C1 (Node.mk "a" "x" [("k", "v")] [.mk "b" "" [] []]) (by decide) (by decide) (by decide)

theorem hmEquiv_small : ∀ (a1 a2 : List (String × String)), hmEquiv a1 a2 = true →
    a1.length ≤ 1 → a2.length ≤ 1 → a1 = a2
  | [], [], _, _, _ => rfl
  | [], kv :: rest, he, _, _ => by simp [hmEquiv] at he
  | kv :: rest, [], he, _, _ => by simp [hmEquiv] at he
  | [(k1, v1)], [(k2, v2)], he, _, _ => by
      simp only [hmEquiv, Bool.and_eq_true, List.all_eq_true] at he
      have h0 := he.2 (k1, v1) (by simp)
      by_cases hk : k2 = k1
      · simp only [hmGet, if_pos hk] at h0
        simp only [beq_iff_eq, Option.some.injEq] at h0
        rw [hk, h0]
      · simp only [hmGet, if_neg hk] at h0
        simp at h0
  | kv1 :: kv2 :: rest, _, _, h1, _ => by simp at h1
  | [kv0], kv1 :: kv2 :: rest, _, _, h2 => by simp at h2

mutual

theorem beqStruct_eq_small : ∀ n1 n2 : Node, n1.beqStruct n2 = true →
    n1.attrsAtMostOne = true → n2.attrsAtMostOne = true → n1 = n2
  | .mk n c a ch, .mk n' c' a' ch', he, h1, h2 => by
      rw [Node.beqStruct] at he
      simp only [Bool.and_eq_true, beq_iff_eq] at he
      rw [Node.attrsAtMostOne] at h1 h2
      simp only [Bool.and_eq_true, decide_eq_true_eq] at h1 h2
      obtain ⟨⟨⟨hn, hc⟩, ha⟩, hch⟩ := he
      rw [hn, hc, hmEquiv_small a a' ha h1.1 h2.1,
          beqStructList_eq_small ch ch' hch h1.2 h2.2]
termination_by structural n1 => n1

theorem beqStructList_eq_small : ∀ l1 l2 : List Node, beqStructList l1 l2 = true →
    attrsAtMostOneList l1 = true → attrsAtMostOneList l2 = true → l1 = l2
  | [], [], _, _, _ => rfl
  | [], _ :: _, he, _, _ => by simp [beqStructList] at he
  | _ :: _, [], he, _, _ => by simp [beqStructList] at he
  | x :: xs, y :: ys, he, h1, h2 => by
      rw [beqStructList] at he
      simp only [Bool.and_eq_true] at he
      rw [attrsAtMostOneList] at h1 h2
      simp only [Bool.and_eq_true] at h1 h2
      rw [beqStruct_eq_small x y he.1 h1.1 h2.1,
          beqStructList_eq_small xs ys he.2 h1.2 h2.2]
termination_by structural l1 => l1

end

/-- C8 counterexample: two structurally equal nodes (equal attribute
mapping) whose attribute entries stand in different iteration orders render
different byte sequences, so writing is not determined by structural
equality alone. -/
theorem claim_C8_counterexample :
    Node.beqStruct (.mk "a" "" [("k1", "v1"), ("k2", "v2")] [])
        (.mk "a" "" [("k2", "v2"), ("k1", "v1")] []) = true
      ∧ (Node.mk "a" "" [("k1", "v1"), ("k2", "v2")] []).render
          ≠ (Node.mk "a" "" [("k2", "v2"), ("k1", "v1")] []).render :=
  ⟨by decide, by decide⟩

/-- C8 (amended): writing is deterministic for structurally equal nodes
whose attribute iteration order is forced, that is, when every node of each
tree carries at most one attribute; with two or more attributes the HashMap
iteration order is not a function of the mapping contents and the emitted
byte sequences may differ. -/
theorem claim_C8 (n1 n2 : Node) (he : n1.beqStruct n2 = true)
    (h1 : n1.attrsAtMostOne = true) (h2 : n2.attrsAtMostOne = true) :
    n1.render = n2.render := by
  rw [beqStruct_eq_small n1 n2 he h1 h2]

/-- C8 witness at a one-attribute node with one child. -/
theorem claim_C8_witness :
    (Node.mk "a" "t" [("k", "v")] [.mk "b" "" [] []]).render
      = (Node.mk "a" "t" [("k", "v")] [.mk "b" "" [] []]).render :=
  claim_C8 _ _ (by decide) (by decide) (by decide)

end TreeXml
